import Mathlib

/-!
Shallow embedding of `src/lib/facil/fiobj/fiobj_mustache.c` (facil.io's FIOBJ
mustache callbacks): name resolution over a scope chain
(`fiobj_mustache_find_obj_absolute`, `fiobj_mustache_find_obj_tree`,
`fiobj_mustache_find_obj`), the section policy (`mustache_on_section_test`,
`mustache_on_section_start`), the rendering glue (`mustache_on_arg`) and the
build entry points (`fiobj_mustache_build2`, `fiobj_mustache_build`).

External collaborators (the fiobj value library and the mustache instruction
engine, which live outside the embedded source file) are modelled from the
specification: the FIOBJ value model, map key lookup, array index access and
count, the section parent chain, the value-to-text conversion and the escaping
gate. `FIOBJ_INVALID` is modelled as `Option.none` wherever the source compares
a lookup result against it.
-/

/-- A C byte string (`const char *name, uint32_t name_len`) as a list of
characters. -/
abbrev CStr := List Char

/-- Modelled from the spec: the external FIOBJ value model — a discriminated
value with variants Null, False, True, Number, String, Array, Map
(`FIOBJ_T_NULL`, `FIOBJ_T_FALSE`, `FIOBJ_T_TRUE`, `FIOBJ_T_NUMBER`,
`FIOBJ_T_STRING`, `FIOBJ_T_ARRAY`, `FIOBJ_T_HASH`). A Map is a list of
key/value entries with string keys. -/
inductive Value where
  | null
  | bfalse
  | btrue
  | num (n : Int)
  | str (s : CStr)
  | arr (elems : List Value)
  | hash (entries : List (CStr × Value))

/-- The FIOBJ runtime type tags (`FIOBJ_T_*`). -/
inductive FiobjType where
  | tnull
  | tfalse
  | ttrue
  | tnumber
  | tstring
  | tarray
  | thash
deriving DecidableEq

/-- `FIOBJ_TYPE(o)`: the runtime type tag of a value. -/
def fiobj_type : Value → FiobjType
  | .null => .tnull
  | .bfalse => .tfalse
  | .btrue => .ttrue
  | .num _ => .tnumber
  | .str _ => .tstring
  | .arr _ => .tarray
  | .hash _ => .thash

/-- `FIOBJ_TYPE_IS(o, t)`. -/
def FIOBJ_TYPE_IS (o : Value) (t : FiobjType) : Bool :=
  fiobj_type o = t

/-- Modelled from the spec: `fiobj_hash_get2` of the external fiobj library —
maps expose key→value lookup by exact string key; `none` (`FIOBJ_INVALID`)
when the key is absent. A value stored under a key (Null included) is returned
as itself, which is distinct from `FIOBJ_INVALID`. -/
def fiobj_hash_get2 (entries : List (CStr × Value)) (key : CStr) : Option Value :=
  match entries with
  | [] => none
  | (k, v) :: rest => if k = key then some v else fiobj_hash_get2 rest key

/-- Modelled from the spec: `fiobj_array_count` of the external fiobj library —
arrays expose their length. -/
def fiobj_array_count : Value → Int
  | .arr l => (l.length : Int)
  | _ => 0

/-- Modelled from the spec: `fiobj_array_get` of the external fiobj library —
arrays expose index access; the executor guarantees `index < count`, so the
out-of-range result (never exercised by the callbacks) is modelled as Null. -/
def fiobj_array_get (l : List Value) (index : Nat) : Value :=
  (l.get? index).getD .null

/-- Modelled from the spec: a `mustache_section_s` scope frame. `udata2` holds
the Value currently in context at this depth; `parents` are the enclosing
frames' contexts, innermost first (`mustache_section_parent` of the external
engine walks this chain and returns NULL at the root). -/
structure MustacheSection where
  udata2 : Value
  parents : List Value

/-- `fiobj_mustache_find_obj_absolute` (source lines 76–81): if `parent` is not
a Map (`FIOBJ_T_HASH`), return `FIOBJ_INVALID`; otherwise return the map's
entry for `key` (`FIOBJ_INVALID` when absent). -/
def fiobj_mustache_find_obj_absolute (parent : Value) (key : CStr) : Option Value :=
  match parent with
  | .hash entries => fiobj_hash_get2 entries key
  | _ => none

/-- The `do … while ((section = mustache_section_parent(section)))` walk of
`fiobj_mustache_find_obj_tree` over the chain of frame contexts, innermost
first. -/
def find_obj_tree_go (chain : List Value) (key : CStr) : Option Value :=
  match chain with
  | [] => none
  | ctx :: rest =>
    match fiobj_mustache_find_obj_absolute ctx key with
    | some tmp => some tmp
    | none => find_obj_tree_go rest key

/-- `fiobj_mustache_find_obj_tree` (source lines 83–96): look the (whole) key
up in each frame of the scope chain, innermost first; first hit wins. -/
def fiobj_mustache_find_obj_tree (sec : MustacheSection) (name : CStr) : Option Value :=
  find_obj_tree_go (sec.udata2 :: sec.parents) name

/-- The scan `while (dot < name_len && name[dot] != '.') ++dot;`: the index of
the first `'.'`, or the length of the string when there is none. -/
def dotIndex : CStr → Nat
  | [] => 0
  | c :: rest => if c = '.' then 0 else dotIndex rest + 1

theorem dotIndex_le (l : CStr) : dotIndex l ≤ l.length := by
  induction l with
  | nil => simp [dotIndex]
  | cons c rest ih =>
    by_cases h : c = '.' <;> simp [dotIndex, h] <;> omega

/-- The `for (;;)` descent loop of `fiobj_mustache_find_obj` (source lines
115–136). `tmp` is the current local root; `tail` is the not-yet-consumed part
of the name, starting right after a `'.'`. Each iteration first tries the
entire remaining `tail` as a single key of `tmp`; if that fails it splits the
tail at its first dot (no dot ⇒ `FIOBJ_INVALID`), requires the segment before
the dot to be present, and descends. -/
def find_obj_loop (tmp : Value) (tail : CStr) : Option Value :=
  match fiobj_mustache_find_obj_absolute tmp tail with
  | some obj => some obj
  | none =>
    if h : dotIndex tail = tail.length then none
    else
      match fiobj_mustache_find_obj_absolute tmp (tail.take (dotIndex tail)) with
      | none => none
      | some tmp2 => find_obj_loop tmp2 (tail.drop (dotIndex tail + 1))
termination_by tail.length
decreasing_by
  have hle := dotIndex_le tail
  simp only [List.length_drop]
  omega

/-- `fiobj_mustache_find_obj` (source lines 98–137): first look the entire
name up along the scope chain; on failure, split at the first dot (no dot ⇒
`FIOBJ_INVALID`), chain-resolve the head, and run the descent loop on the
tail. -/
def fiobj_mustache_find_obj (sec : MustacheSection) (name : CStr) : Option Value :=
  match fiobj_mustache_find_obj_tree sec name with
  | some tmp => some tmp
  | none =>
    if dotIndex name = name.length then none
    else
      match fiobj_mustache_find_obj_tree sec (name.take (dotIndex name)) with
      | none => none
      | some tmp => find_obj_loop tmp (name.drop (dotIndex name + 1))

/-- `mustache_on_section_test` (source lines 188–198): `FIOBJ_INVALID` or a
False value ⇒ 0; an Array ⇒ its count; anything else ⇒ 1. The `callable` flag
is explicitly ignored (`(void)callable`). -/
def mustache_on_section_test (sec : MustacheSection) (name : CStr)
    (callable : Bool) : Int :=
  match fiobj_mustache_find_obj sec name with
  | none => 0
  | some o =>
    if FIOBJ_TYPE_IS o .tfalse then 0
    else if FIOBJ_TYPE_IS o .tarray then fiobj_array_count o
    else 1

/-- `mustache_on_section_start` (source lines 212–223): `FIOBJ_INVALID` ⇒
error (`-1`, modelled as `none`); an Array ⇒ the child context is the element
at `index`; anything else ⇒ the child context is the value itself. -/
def mustache_on_section_start (sec : MustacheSection) (name : CStr)
    (index : Nat) : Option MustacheSection :=
  match fiobj_mustache_find_obj sec name with
  | none => none
  | some (.arr l) => some { sec with udata2 := fiobj_array_get l index }
  | some o => some { sec with udata2 := o }

/-- Modelled from the spec: `mustache_write_text` of the external engine
appends text to the output sink through the external escaping gate when
`escape` is set, verbatim otherwise. Returns the appended bytes. -/
def mustache_write_text (i : CStr) (escape : Bool) (gate : CStr → CStr) : CStr :=
  if escape then gate i else i

/-- `mustache_on_arg` (source lines 151–160), with the external collaborators
passed in: `fiobj2cstr` (the external value-to-text conversion) and `gate`
(the external escaping table). Returns the bytes appended to the output
sink: nothing for `FIOBJ_INVALID` or an empty text representation, otherwise
the text through `mustache_write_text`. -/
def mustache_on_arg (fiobj2cstr : Value → CStr) (gate : CStr → CStr)
    (sec : MustacheSection) (name : CStr) (escape : Bool) : CStr :=
  match fiobj_mustache_find_obj sec name with
  | none => []
  | some o =>
    let i := fiobj2cstr o
    if i.length = 0 then []
    else mustache_write_text i escape gate

/-- `mustache_s` (the compiled template); only the field the embedded source
reads (`u.read_only.data_length`) is modelled. -/
structure mustache_s where
  data_length : Nat

/-- A FIOBJ handle at the build interface: either `FIOBJ_INVALID` or a live
object. -/
inductive FIOBJ where
  | invalid
  | obj (v : Value)

/-- Modelled from the spec: `fiobj_str_new_buf` of the external fiobj library
creates a fresh, valid FIOBJ String; the capacity hint does not affect its
(empty) contents. -/
def fiobj_str_new_buf (capa : Nat) : FIOBJ :=
  .obj (.str [])

/-- `fiobj_mustache_build2` (source lines 53–57): runs the external
`mustache_build` renderer (passed in as a parameter) for its side effects and
returns `dest`; the renderer's status result is discarded. -/
def fiobj_mustache_build2
    (mustache_build : Option mustache_s → FIOBJ → FIOBJ → Int)
    (dest : FIOBJ) (m : Option mustache_s) (data : FIOBJ) : FIOBJ :=
  let _ := mustache_build m dest data
  dest

/-- `fiobj_mustache_build` (source lines 65–70): a NULL template ⇒
`FIOBJ_INVALID`; otherwise render into a fresh FIOBJ String via
`fiobj_mustache_build2`. -/
def fiobj_mustache_build
    (mustache_build : Option mustache_s → FIOBJ → FIOBJ → Int)
    (m : Option mustache_s) (data : FIOBJ) : FIOBJ :=
  match m with
  | none => FIOBJ.invalid
  | some ms =>
    fiobj_mustache_build2 mustache_build (fiobj_str_new_buf ms.data_length)
      (some ms) data

/-- Following the specification text (§4.2 step 3), for comparison against the
source: strict absolute descent, one segment at a time — take the next segment
(up to the next dot or the end), require the current local root to be a Map
containing that key, replace the local root with that key's value, repeat. -/
def spec_descend (root : Value) (tail : CStr) : Option Value :=
  if h : dotIndex tail = tail.length then
    fiobj_mustache_find_obj_absolute root tail
  else
    match fiobj_mustache_find_obj_absolute root (tail.take (dotIndex tail)) with
    | none => none
    | some v => spec_descend v (tail.drop (dotIndex tail + 1))
termination_by tail.length
decreasing_by
  have hle := dotIndex_le tail
  simp only [List.length_drop]
  omega

/-- Following the specification text (§4.2 steps 1–3), for comparison against
the source: chain-walk only the head (the part before the first dot, or the
whole name when there is none); for a dotless name that value is the result;
for a dotted name descend strictly segment-wise from it. -/
def spec_resolve (sec : MustacheSection) (name : CStr) : Option Value :=
  match fiobj_mustache_find_obj_tree sec (name.take (dotIndex name)) with
  | none => none
  | some v =>
    if dotIndex name = name.length then some v
    else spec_descend v (name.drop (dotIndex name + 1))

/-! ### Helper lemmas -/

theorem dotIndex_eq_length_iff (l : CStr) : dotIndex l = l.length ↔ '.' ∉ l := by
  induction l with
  | nil => simp [dotIndex]
  | cons c rest ih =>
    by_cases h : c = '.'
    · subst h
      simp [dotIndex]
    · simp only [dotIndex, if_neg h, List.length_cons, List.mem_cons,
        Nat.add_right_cancel_iff, ih]
      constructor
      · intro hnr hor
        rcases hor with h2 | h2
        · exact h h2.symm
        · exact hnr h2
      · intro hnot hr
        exact hnot (Or.inr hr)

theorem find_obj_tree_go_eq (chain : List Value) (key : CStr) :
    find_obj_tree_go chain key
      = chain.findSome? (fun ctx => fiobj_mustache_find_obj_absolute ctx key) := by
  induction chain with
  | nil => rfl
  | cons ctx rest ih =>
    unfold find_obj_tree_go
    cases h : fiobj_mustache_find_obj_absolute ctx key with
    | some v => simp [List.findSome?, h]
    | none => simp [List.findSome?, h, ih]

theorem fiobj_mustache_find_obj_absolute_nonhash (v : Value) (key : CStr)
    (h : ∀ entries, v ≠ Value.hash entries) :
    fiobj_mustache_find_obj_absolute v key = none := by
  cases v <;> first | rfl | exact absurd rfl (h _)

theorem find_obj_loop_nil (root : Value) :
    find_obj_loop root [] = fiobj_mustache_find_obj_absolute root [] := by
  rw [find_obj_loop]
  cases h : fiobj_mustache_find_obj_absolute root [] <;> simp [h, dotIndex]

theorem find_obj_loop_nonhash (v : Value) (tail : CStr)
    (h : ∀ entries, v ≠ Value.hash entries) :
    find_obj_loop v tail = none := by
  rw [find_obj_loop]
  simp only [fiobj_mustache_find_obj_absolute_nonhash _ _ h]
  split <;> rfl

theorem dotIndex_append_dot (base rest : CStr) (h : '.' ∉ base) :
    dotIndex (base ++ '.' :: rest) = base.length := by
  induction base with
  | nil => simp [dotIndex]
  | cons c cs ih =>
    have hc : c ≠ '.' := fun hceq => h (by simp [hceq])
    have hcs : '.' ∉ cs := fun hm => h (List.mem_cons_of_mem _ hm)
    have hstep : dotIndex (c :: (cs ++ '.' :: rest))
        = dotIndex (cs ++ '.' :: rest) + 1 := by
      simp only [dotIndex, if_neg hc]
    show dotIndex (c :: (cs ++ '.' :: rest)) = cs.length + 1
    rw [hstep, ih hcs]

theorem take_len_append (base suf : CStr) : (base ++ suf).take base.length = base := by
  induction base with
  | nil => rfl
  | cons c cs ih => simp [List.cons_append, List.take_succ_cons, ih]

theorem drop_append_dot (base rest : CStr) :
    (base ++ '.' :: rest).drop (base.length + 1) = rest := by
  induction base with
  | nil => rfl
  | cons c cs ih => simpa [List.cons_append, List.drop_succ_cons] using ih

/-! ### Claims about the name resolver -/

/-- C1 counterexample: with context `a ↦ (Map holding the literal key "b.c")`,
the source resolver returns that value for the name `a.b.c` — the descent loop
first tries the entire remaining tail `"b.c"` as a single key — while the
claimed strict one-segment-at-a-time descent (which requires a key `"b"`)
yields NotFound. -/
theorem C1_counterexample :
    fiobj_mustache_find_obj
        ⟨Value.hash [(['a'], Value.hash [(['b', '.', 'c'], Value.num 1)])], []⟩
        ['a', '.', 'b', '.', 'c'] = some (Value.num 1)
    ∧ spec_resolve
        ⟨Value.hash [(['a'], Value.hash [(['b', '.', 'c'], Value.num 1)])], []⟩
        ['a', '.', 'b', '.', 'c'] = none := by
  constructor
  · have h : find_obj_loop (Value.hash [(['b', '.', 'c'], Value.num 1)]) ['b', '.', 'c']
        = some (Value.num 1) := by
      rw [find_obj_loop]; rfl
    exact h
  · have h : spec_descend (Value.hash [(['b', '.', 'c'], Value.num 1)]) ['b', '.', 'c']
        = none := by
      rw [spec_descend]; rfl
    exact h

/-- C1 (amended): after the head of a dotted name has been chain-resolved (the
full dotted name itself not having been found as a literal key along the
chain), the tail is resolved by absolute descent only: the descent
(`find_obj_loop`) receives no scope chain, a non-Map local root yields
NotFound, and at each step the entire remaining tail is first tried as a
single literal key of the local root before one segment is split off at the
next dot. -/
theorem C1_tail_descent_amended (sec : MustacheSection) (name : CStr)
    (hfull : fiobj_mustache_find_obj_tree sec name = none)
    (hdot : dotIndex name < name.length) :
    (∀ root,
        fiobj_mustache_find_obj_tree sec (name.take (dotIndex name)) = some root →
        fiobj_mustache_find_obj sec name
          = find_obj_loop root (name.drop (dotIndex name + 1)))
    ∧ (∀ root,
        fiobj_mustache_find_obj_tree sec (name.take (dotIndex name)) = some root →
        (∀ entries, root ≠ Value.hash entries) →
        fiobj_mustache_find_obj sec name = none)
    ∧ (∀ entries v,
        fiobj_mustache_find_obj_tree sec (name.take (dotIndex name))
          = some (Value.hash entries) →
        fiobj_hash_get2 entries (name.drop (dotIndex name + 1)) = some v →
        fiobj_mustache_find_obj sec name = some v) := by
  have hbase : ∀ root,
      fiobj_mustache_find_obj_tree sec (name.take (dotIndex name)) = some root →
      fiobj_mustache_find_obj sec name
        = find_obj_loop root (name.drop (dotIndex name + 1)) := by
    intro root hroot
    simp only [fiobj_mustache_find_obj, hfull, hroot]
    rw [if_neg (by omega : ¬ dotIndex name = name.length)]
  refine ⟨hbase, ?_, ?_⟩
  · intro root hroot hnon
    rw [hbase root hroot]
    exact find_obj_loop_nonhash root _ hnon
  · intro entries v hroot hget
    rw [hbase _ hroot, find_obj_loop]
    simp only [fiobj_mustache_find_obj_absolute, hget]

/-- C1 witness: instantiates the amended theorem's whole-tail case at the
two-segment name `a.b` against `a ↦ (Map with key "b")`. -/
theorem C1_tail_descent_amended_witness :
    fiobj_mustache_find_obj
        ⟨Value.hash [(['a'], Value.hash [(['b'], Value.num 2)])], []⟩
        ['a', '.', 'b'] = some (Value.num 2) :=
  (C1_tail_descent_amended
      ⟨Value.hash [(['a'], Value.hash [(['b'], Value.num 2)])], []⟩
      ['a', '.', 'b'] rfl (by decide)).2.2
    [(['b'], Value.num 2)] (Value.num 2) rfl rfl

/-- C2 counterexample: the resolver DOES look the entire dotted name up as a
single key first — with context `Map with the literal key "a.b"` (and no `a`
binding anywhere), the source resolver returns that entry for the name `a.b`,
while the claimed head-first algorithm yields NotFound. -/
theorem C2_counterexample :
    fiobj_mustache_find_obj ⟨Value.hash [(['a', '.', 'b'], Value.num 7)], []⟩
        ['a', '.', 'b'] = some (Value.num 7)
    ∧ spec_resolve ⟨Value.hash [(['a', '.', 'b'], Value.num 7)], []⟩
        ['a', '.', 'b'] = none :=
  ⟨rfl, rfl⟩

/-- C2 (amended): resolution FIRST looks up the entire name, dots included, as
a single literal key along the scope chain; only when that lookup fails does
it split at the first dot, chain-resolve the head alone, and descend into the
tail from the value so found. -/
theorem C2_first_dot_amended (sec : MustacheSection) (name : CStr) :
    (∀ v, fiobj_mustache_find_obj_tree sec name = some v →
        fiobj_mustache_find_obj sec name = some v)
    ∧ (fiobj_mustache_find_obj_tree sec name = none →
        dotIndex name < name.length →
        fiobj_mustache_find_obj sec name
          = match fiobj_mustache_find_obj_tree sec (name.take (dotIndex name)) with
            | none => none
            | some root => find_obj_loop root (name.drop (dotIndex name + 1)))
    ∧ (fiobj_mustache_find_obj_tree sec name = none →
        dotIndex name = name.length →
        fiobj_mustache_find_obj sec name = none) := by
  refine ⟨?_, ?_, ?_⟩
  · intro v hv
    simp only [fiobj_mustache_find_obj, hv]
  · intro hnone hlt
    simp only [fiobj_mustache_find_obj, hnone]
    rw [if_neg (by omega : ¬ dotIndex name = name.length)]
  · intro hnone heq
    simp only [fiobj_mustache_find_obj, hnone]
    rw [if_pos heq]

/-- C2 witness: the full-name lookup wins even when an ancestor scope could
satisfy the head-split algorithm. -/
theorem C2_first_dot_amended_witness :
    fiobj_mustache_find_obj
        ⟨Value.hash [(['a', '.', 'b'], Value.num 7)],
         [Value.hash [(['a'], Value.hash [(['b'], Value.num 3)])]]⟩
        ['a', '.', 'b'] = some (Value.num 7) :=
  (C2_first_dot_amended
      ⟨Value.hash [(['a', '.', 'b'], Value.num 7)],
       [Value.hash [(['a'], Value.hash [(['b'], Value.num 3)])]]⟩
      ['a', '.', 'b']).1 (Value.num 7) rfl

/-- C3: for a dotless name, resolution is exactly the scope-chain walk: the
first (innermost) frame whose context is a Map containing the key supplies the
value — inner scopes shadow outer ones — and the result is NotFound when no
frame on the chain has the key. -/
theorem C3_shadowing (ctx : Value) (parents : List Value) (name : CStr)
    (h : '.' ∉ name) :
    fiobj_mustache_find_obj ⟨ctx, parents⟩ name
      = (ctx :: parents).findSome?
          (fun c => fiobj_mustache_find_obj_absolute c name) := by
  have hd : dotIndex name = name.length := (dotIndex_eq_length_iff name).mpr h
  have hgo : fiobj_mustache_find_obj_tree ⟨ctx, parents⟩ name
      = (ctx :: parents).findSome?
          (fun c => fiobj_mustache_find_obj_absolute c name) := by
    unfold fiobj_mustache_find_obj_tree
    exact find_obj_tree_go_eq _ _
  rw [← hgo]
  cases hT : fiobj_mustache_find_obj_tree ⟨ctx, parents⟩ name with
  | some v => simp only [fiobj_mustache_find_obj, hT]
  | none => simp only [fiobj_mustache_find_obj, hT, if_pos hd]

/-- C3 witness: shadowing at a concrete two-frame chain — the inner binding of
`x` wins over the ancestor's. -/
theorem C3_shadowing_witness :
    fiobj_mustache_find_obj
        ⟨Value.hash [(['x'], Value.num 1)], [Value.hash [(['x'], Value.num 2)]]⟩
        ['x']
      = ([Value.hash [(['x'], Value.num 1)],
          Value.hash [(['x'], Value.num 2)]].findSome?
            (fun c => fiobj_mustache_find_obj_absolute c ['x'])) :=
  C3_shadowing (Value.hash [(['x'], Value.num 1)])
    [Value.hash [(['x'], Value.num 2)]] ['x'] (by decide)

/-! ### Claims about the section policy and rendering glue -/

/-- C4: the section test returns 0 when the name is NotFound or resolves to
False, the element count when it resolves to an Array (hence 0 for an empty
Array), and 1 for any other present value; the callable flag has no influence
on the result. -/
theorem C4_section_test_spec (sec : MustacheSection) (name : CStr) :
    (fiobj_mustache_find_obj sec name = none →
        ∀ callable, mustache_on_section_test sec name callable = 0)
    ∧ (fiobj_mustache_find_obj sec name = some Value.bfalse →
        ∀ callable, mustache_on_section_test sec name callable = 0)
    ∧ (∀ l, fiobj_mustache_find_obj sec name = some (Value.arr l) →
        ∀ callable, mustache_on_section_test sec name callable = (l.length : Int))
    ∧ (∀ o, fiobj_mustache_find_obj sec name = some o →
        fiobj_type o ≠ FiobjType.tfalse → fiobj_type o ≠ FiobjType.tarray →
        ∀ callable, mustache_on_section_test sec name callable = 1)
    ∧ (∀ c c', mustache_on_section_test sec name c
        = mustache_on_section_test sec name c') := by
  refine ⟨?_, ?_, ?_, ?_, fun c c' => rfl⟩
  · intro h callable
    simp only [mustache_on_section_test, h]
  · intro h callable
    simp only [mustache_on_section_test, h]
    rfl
  · intro l h callable
    simp only [mustache_on_section_test, h]
    rfl
  · intro o h h1 h2 callable
    have hb1 : FIOBJ_TYPE_IS o FiobjType.tfalse = false := decide_eq_false h1
    have hb2 : FIOBJ_TYPE_IS o FiobjType.tarray = false := decide_eq_false h2
    simp only [mustache_on_section_test, h, hb1, hb2]
    rfl

/-- C4 witness: a three-element Array tests to 3. -/
theorem C4_section_test_spec_witness :
    mustache_on_section_test
        ⟨Value.hash [(['l'], Value.arr [Value.null, Value.btrue, Value.num 5])], []⟩
        ['l'] true = 3 :=
  (C4_section_test_spec
      ⟨Value.hash [(['l'], Value.arr [Value.null, Value.btrue, Value.num 5])], []⟩
      ['l']).2.2.1 [Value.null, Value.btrue, Value.num 5] rfl true

/-- C5 counterexample: a name that resolves to the Null value is NOT treated
as absent — the section test returns 1, not the claimed 0, because the source
only treats `FIOBJ_INVALID` (`!o`) and `FIOBJ_T_FALSE` as falsy, and a stored
Null is a present value distinct from `FIOBJ_INVALID`. -/
theorem C5_counterexample :
    fiobj_mustache_find_obj ⟨Value.hash [(['x'], Value.null)], []⟩ ['x']
      = some Value.null
    ∧ mustache_on_section_test ⟨Value.hash [(['x'], Value.null)], []⟩ ['x'] false
      = 1 :=
  ⟨rfl, rfl⟩

/-- C5 (amended): a name that resolves to Null is treated as a PRESENT value:
the section test returns 1 (the body renders once), and interpolation emits
Null's external text representation through the normal path — nothing exactly
when that representation is empty. -/
theorem C5_null_present_amended (sec : MustacheSection) (name : CStr)
    (h : fiobj_mustache_find_obj sec name = some Value.null) :
    (∀ callable, mustache_on_section_test sec name callable = 1)
    ∧ (∀ fiobj2cstr gate escape, fiobj2cstr Value.null ≠ ([] : CStr) →
        mustache_on_arg fiobj2cstr gate sec name escape
          = mustache_write_text (fiobj2cstr Value.null) escape gate)
    ∧ (∀ fiobj2cstr gate escape, fiobj2cstr Value.null = ([] : CStr) →
        mustache_on_arg fiobj2cstr gate sec name escape = []) := by
  refine ⟨?_, ?_, ?_⟩
  · intro callable
    simp only [mustache_on_section_test, h]
    rfl
  · intro f gate escape hne
    have hlen : ¬ (f Value.null).length = 0 := by
      simpa [List.length_eq_zero] using hne
    simp only [mustache_on_arg, h]
    rw [if_neg hlen]
  · intro f gate escape heq
    simp only [mustache_on_arg, h, heq]
    rfl

/-- C5 witness: the section test at a concrete Null binding. -/
theorem C5_null_present_amended_witness :
    mustache_on_section_test ⟨Value.hash [(['n'], Value.null)], []⟩ ['n'] true
      = 1 :=
  (C5_null_present_amended ⟨Value.hash [(['n'], Value.null)], []⟩ ['n'] rfl).1 true

/-- C6: section enter resolves the name: NotFound ⇒ Error; an Array ⇒ the
child context is the element at the 0-based index (for any valid index); any
non-Array value ⇒ the child context is that value itself, whatever the
index. -/
theorem C6_section_start_spec (sec : MustacheSection) (name : CStr) (index : Nat) :
    (fiobj_mustache_find_obj sec name = none →
        mustache_on_section_start sec name index = none)
    ∧ (∀ l, fiobj_mustache_find_obj sec name = some (Value.arr l) →
        ∀ h : index < l.length,
        mustache_on_section_start sec name index
          = some { sec with udata2 := l.get ⟨index, h⟩ })
    ∧ (∀ o, fiobj_mustache_find_obj sec name = some o →
        (∀ l, o ≠ Value.arr l) →
        mustache_on_section_start sec name index
          = some { sec with udata2 := o }) := by
  refine ⟨?_, ?_, ?_⟩
  · intro h
    simp only [mustache_on_section_start, h]
  · intro l hl h
    have hget : fiobj_array_get l index = l.get ⟨index, h⟩ := by
      simp [fiobj_array_get, List.getElem?_eq_getElem h]
    simp only [mustache_on_section_start, hl, hget]
  · intro o ho hno
    rcases o with _ | _ | _ | n | s | l | e
    · simp only [mustache_on_section_start, ho]
    · simp only [mustache_on_section_start, ho]
    · simp only [mustache_on_section_start, ho]
    · simp only [mustache_on_section_start, ho]
    · simp only [mustache_on_section_start, ho]
    · exact absurd rfl (hno l)
    · simp only [mustache_on_section_start, ho]

/-- C6 witness: entering an Array section at repetition index 1 pushes the
second element as the child context. -/
theorem C6_section_start_spec_witness :
    mustache_on_section_start
        ⟨Value.hash [(['l'], Value.arr [Value.num 0, Value.num 9])], []⟩ ['l'] 1
      = some ⟨Value.num 9, []⟩ :=
  (C6_section_start_spec
      ⟨Value.hash [(['l'], Value.arr [Value.num 0, Value.num 9])], []⟩ ['l'] 1).2.1
    [Value.num 0, Value.num 9] rfl (by decide)

/-- C7: if the section test answers at least 1, an immediately following enter
on the same frame and name cannot return Error — both resolve the name
independently through the same pure resolver, and a count of at least 1 rules
NotFound out. -/
theorem C7_test_then_start (sec : MustacheSection) (name : CStr)
    (callable : Bool) (index : Nat)
    (h : 1 ≤ mustache_on_section_test sec name callable) :
    ∃ child, mustache_on_section_start sec name index = some child := by
  cases hf : fiobj_mustache_find_obj sec name with
  | none =>
    have h0 : mustache_on_section_test sec name callable = 0 := by
      simp only [mustache_on_section_test, hf]
    rw [h0] at h
    exact absurd h (by decide)
  | some o =>
    rcases o with _ | _ | _ | n | s | l | e
    · exact ⟨{ sec with udata2 := Value.null },
        by simp only [mustache_on_section_start, hf]⟩
    · exact ⟨{ sec with udata2 := Value.bfalse },
        by simp only [mustache_on_section_start, hf]⟩
    · exact ⟨{ sec with udata2 := Value.btrue },
        by simp only [mustache_on_section_start, hf]⟩
    · exact ⟨{ sec with udata2 := Value.num n },
        by simp only [mustache_on_section_start, hf]⟩
    · exact ⟨{ sec with udata2 := Value.str s },
        by simp only [mustache_on_section_start, hf]⟩
    · exact ⟨{ sec with udata2 := fiobj_array_get l index },
        by simp only [mustache_on_section_start, hf]⟩
    · exact ⟨{ sec with udata2 := Value.hash e },
        by simp only [mustache_on_section_start, hf]⟩

/-- C7 witness: a truthy scalar section — test answers 1, enter succeeds. -/
theorem C7_test_then_start_witness :
    ∃ child, mustache_on_section_start
        ⟨Value.hash [(['k'], Value.btrue)], []⟩ ['k'] 0 = some child :=
  C7_test_then_start ⟨Value.hash [(['k'], Value.btrue)], []⟩ ['k'] false 0
    (by decide)

/-- C8: the interpolation handler emits zero bytes when the name is NotFound
or the resolved value's text representation is empty; otherwise it appends the
text representation through the external escaping gate exactly when the escape
flag is set, verbatim otherwise. -/
theorem C8_on_arg_spec (fiobj2cstr : Value → CStr) (gate : CStr → CStr)
    (sec : MustacheSection) (name : CStr) (escape : Bool) :
    (fiobj_mustache_find_obj sec name = none →
        mustache_on_arg fiobj2cstr gate sec name escape = [])
    ∧ (∀ o, fiobj_mustache_find_obj sec name = some o → fiobj2cstr o = [] →
        mustache_on_arg fiobj2cstr gate sec name escape = [])
    ∧ (∀ o, fiobj_mustache_find_obj sec name = some o → fiobj2cstr o ≠ [] →
        mustache_on_arg fiobj2cstr gate sec name escape
          = if escape then gate (fiobj2cstr o) else fiobj2cstr o) := by
  refine ⟨?_, ?_, ?_⟩
  · intro h
    simp only [mustache_on_arg, h]
  · intro o ho he
    simp only [mustache_on_arg, ho, he]
    rfl
  · intro o ho hne
    have hlen : ¬ (fiobj2cstr o).length = 0 := by
      simpa [List.length_eq_zero] using hne
    simp only [mustache_on_arg, ho]
    rw [if_neg hlen]
    rfl

/-- C8 witness: an escaped interpolation of a non-empty string passes through
the gate. -/
theorem C8_on_arg_spec_witness :
    mustache_on_arg (fun v => match v with | Value.str s => s | _ => [])
        (fun s => '&' :: s)
        ⟨Value.hash [(['s'], Value.str ['h', 'i'])], []⟩ ['s'] true
      = ['&', 'h', 'i'] :=
  (C8_on_arg_spec (fun v => match v with | Value.str s => s | _ => [])
      (fun s => '&' :: s)
      ⟨Value.hash [(['s'], Value.str ['h', 'i'])], []⟩ ['s'] true).2.2
    (Value.str ['h', 'i']) rfl (by decide)

/-! ### Empty-segment and build-interface claims -/

/-- C9 counterexample: the claimed "exactly when" fails — with a context
holding the literal key `"a."` (and no `a` binding anywhere), the resolver
returns that entry for the name `a.` through its full-name chain lookup, while
under the claim (no Map bound to `a`, hence no empty-string key in it) the
result would have to be NotFound; the claim-following resolver agrees on
NotFound. -/
theorem C9_counterexample :
    fiobj_mustache_find_obj ⟨Value.hash [(['a', '.'], Value.num 7)], []⟩
        ['a', '.'] = some (Value.num 7)
    ∧ spec_resolve ⟨Value.hash [(['a', '.'], Value.num 7)], []⟩ ['a', '.'] = none :=
  ⟨rfl, rfl⟩

/-- C9 (amended): provided the full name with its trailing dot is not itself
found as a literal key along the scope chain, an empty trailing segment is
treated as a lookup of the literal empty-string key, not skipped: for a
dot-free `base`, resolving `base ++ "."` succeeds exactly when `base`
chain-resolves to a Map containing the empty-string key, whose value is then
the result. -/
theorem C9_empty_segment_amended (sec : MustacheSection) (base : CStr)
    (hnd : '.' ∉ base)
    (hfull : fiobj_mustache_find_obj_tree sec (base ++ ['.']) = none) :
    fiobj_mustache_find_obj sec (base ++ ['.'])
      = (fiobj_mustache_find_obj_tree sec base).bind
          (fun root => fiobj_mustache_find_obj_absolute root []) := by
  have hdi : dotIndex (base ++ ['.']) = base.length :=
    dotIndex_append_dot base [] hnd
  have hlen : (base ++ ['.']).length = base.length + 1 := by simp
  have htake : (base ++ ['.']).take (dotIndex (base ++ ['.'])) = base := by
    rw [hdi]; exact take_len_append base ['.']
  have hdrop : (base ++ ['.']).drop (dotIndex (base ++ ['.']) + 1) = [] := by
    rw [hdi]; exact drop_append_dot base []
  have hne : ¬ dotIndex (base ++ ['.']) = (base ++ ['.']).length := by
    rw [hdi, hlen]; omega
  simp only [fiobj_mustache_find_obj, hfull]
  rw [if_neg hne, htake, hdrop]
  cases hR : fiobj_mustache_find_obj_tree sec base with
  | none => rfl
  | some root => exact find_obj_loop_nil root

/-- C9 witness: `a.` against `a ↦ (Map with the empty-string key)` resolves to
that key's value. -/
theorem C9_empty_segment_amended_witness :
    fiobj_mustache_find_obj
        ⟨Value.hash [(['a'], Value.hash [([], Value.num 9)])], []⟩ ['a', '.']
      = some (Value.num 9) :=
  C9_empty_segment_amended
    ⟨Value.hash [(['a'], Value.hash [([], Value.num 9)])], []⟩ ['a']
    (by decide) rfl

/-- C10: `fiobj_mustache_build2` returns the destination it was given
unconditionally — the underlying renderer's status is discarded, so an
erroring render is indistinguishable from success at this interface (two
different renderers give the same result) — and only `fiobj_mustache_build`
with a NULL template returns `FIOBJ_INVALID`; with a non-NULL template it
returns the freshly created, valid FIOBJ String. -/
theorem C10_build_return
    (render render' : Option mustache_s → FIOBJ → FIOBJ → Int)
    (dest : FIOBJ) (m : Option mustache_s) (data : FIOBJ) :
    (fiobj_mustache_build2 render dest m data = dest)
    ∧ (fiobj_mustache_build2 render dest m data
        = fiobj_mustache_build2 render' dest m data)
    ∧ (fiobj_mustache_build render none data = FIOBJ.invalid)
    ∧ (∀ ms, fiobj_mustache_build render (some ms) data
        = FIOBJ.obj (Value.str [])) :=
  ⟨rfl, rfl, rfl, fun _ => rfl⟩
